import Mathlib

/-!
Shallow embedding of `src/redis-queue.py`: a deque-like client (`RedisQueue`)
over a single named list living in an external ordered-list store, plus an
`ExclusiveQueue` variant enforcing at-most-one-occurrence-per-value under a
single caller.  All claims are stated for the no-concurrent-writers setting,
so each Python method becomes a pure state transformer on the store state of
the one key the queue addresses.
-/

/-- Runtime values handled by the client.  Sequence elements are opaque
byte-like values (`bytes`); the blocking pop primitive additionally returns a
(key, value) tuple (`pair`), which the code may then pass back into other
operations, so tuples must live in the same value universe for the equality
comparisons `lrem` performs. -/
inductive Val where
  | bytes (s : String)
  | pair (key : String) (v : Val)
deriving DecidableEq

/-- State of the one list the queue addresses.  `none` means the key/sequence
does not exist in the store; `some l` means the key holds the sequence `l`
(head first). -/
abbrev Store := Option (List Val)

/-- The elements currently in the sequence (a nonexistent sequence has none). -/
def seqOf (s : Store) : List Val := s.getD []

/-- Modelled from the spec: the store's push-tail primitive (`rpush`),
creating the sequence when the key does not exist. -/
def rpush (x : Val) (s : Store) : Store := some (seqOf s ++ [x])

/-- Modelled from the spec: the store's push-head primitive (`lpush`). -/
def lpush (x : Val) (s : Store) : Store := some (x :: seqOf s)

/-- Modelled from the spec: the store's delete-key primitive. -/
def delete (_ : Store) : Store := none

/-- Modelled from the spec: non-blocking pop-tail (`rpop`), returning
value-or-empty and the remaining state. -/
def rpop (s : Store) : Option Val × Store :=
  match s with
  | none => (none, none)
  | some l => (l.getLast?, some l.dropLast)

/-- Modelled from the spec: non-blocking pop-head (`lpop`). -/
def lpop (s : Store) : Option Val × Store :=
  match s with
  | none => (none, none)
  | some l => (l.head?, some l.tail)

/-- Modelled from the spec: blocking pop-tail (`brpop`) with no concurrent
writers: on a nonempty sequence it returns immediately with the (key, value)
pair; otherwise the wait times out and it returns the empty indicator. -/
def brpop (key : String) (s : Store) : Option (String × Val) × Store :=
  ((rpop s).1.map (fun v => (key, v)), (rpop s).2)

/-- Modelled from the spec: blocking pop-head (`blpop`), symmetric. -/
def blpop (key : String) (s : Store) : Option (String × Val) × Store :=
  ((lpop s).1.map (fun v => (key, v)), (lpop s).2)

/-- Modelled from the spec: the store's length primitive (`llen`). -/
def llen (s : Store) : Nat := (seqOf s).length

/-- Modelled from the spec: full-range read (`lrange key 0 -1`): all elements
as a sequence, or the does-not-exist indicator when the key is absent. -/
def lrangeAll (s : Store) : Option (List Val) := s

/-- Modelled from the spec: delete-all-matching-value (`lrem`), returning the
count removed.  The argument is whatever Python value the caller passed (the
code passes pop results, which may be the empty indicator `none`); it matches
a stored element exactly when it equals that element. -/
def lrem (x : Option Val) (s : Store) : Nat × Store :=
  match s with
  | none => (0, none)
  | some l =>
      (l.countP (fun e => decide (x = some e)),
       some (l.filter (fun e => decide (¬ x = some e))))

/-- Normalize a store index: negative indices count from the tail. -/
def normIdx (i : Int) (n : Nat) : Int := if i < 0 then i + n else i

/-- Modelled from the spec: indexed get (`lindex`); empty indicator when the
index is out of range or the key does not exist. -/
def lindex (i : Int) (s : Store) : Option Val :=
  let l := seqOf s
  let j := normIdx i l.length
  if 0 ≤ j then l.get? j.toNat else none

/-- Modelled from the spec: indexed set (`lset`); raises a range/type error
(`Except.error`) when the key does not exist or the index is out of range. -/
def lset (i : Int) (v : Val) (s : Store) : Except Unit Store :=
  match s with
  | none => .error ()
  | some l =>
      let j := normIdx i l.length
      if 0 ≤ j ∧ j < (l.length : Int) then .ok (some (l.set j.toNat v)) else .error ()

/-- Modelled from the spec: atomic rotate-by-moving-tail-to-head
(`poppush key key`); a no-op on an empty or nonexistent sequence. -/
def poppush (s : Store) : Store :=
  match s with
  | none => none
  | some l =>
      match l.getLast? with
      | none => some []
      | some x => some (x :: l.dropLast)

namespace RedisQueue

/-- Method `RedisQueue.append`: `rpush(key, x)`. -/
def append (x : Val) (s : Store) : Store := rpush x s

/-- Method `RedisQueue.appendleft`: `lpush(key, x)`. -/
def appendleft (x : Val) (s : Store) : Store := lpush x s

/-- Method `RedisQueue.clear`: `delete(key)`. -/
def clear (s : Store) : Store := delete s

/-- Method `RedisQueue.extend`: `self.append(item)` for each item in turn.  On a
plain `RedisQueue`, `self.append` is this class's `append`. -/
def extend (xs : List Val) (s : Store) : Store :=
  xs.foldl (fun st x => append x st) s

/-- Method `RedisQueue.extendleft`: `self.appendleft(item)` for each item in turn. -/
def extendleft (xs : List Val) (s : Store) : Store :=
  xs.foldl (fun st x => appendleft x st) s

/-- Method `RedisQueue.pop(timeout)`: `brpop` when a timeout is given (its (key,
value) tuple result is returned as-is, embedded as `Val.pair`), `rpop`
otherwise. -/
def pop (key : String) (timeout : Option Nat) (s : Store) : Option Val × Store :=
  match timeout with
  | some _ =>
      let r := brpop key s
      (r.1.map (fun p => Val.pair p.1 p.2), r.2)
  | none => rpop s

/-- Method `RedisQueue.popleft(timeout)`: symmetric, via `blpop`/`lpop`. -/
def popleft (key : String) (timeout : Option Nat) (s : Store) : Option Val × Store :=
  match timeout with
  | some _ =>
      let r := blpop key s
      (r.1.map (fun p => Val.pair p.1 p.2), r.2)
  | none => lpop s

/-- Method `RedisQueue.remove(value)`: `lrem`, then raise `ValueError` when zero
occurrences were removed.  The error payload is the store state at the moment
the exception propagates (a raised exception does not roll back store
effects). -/
def remove (x : Option Val) (s : Store) : Except Store Store :=
  let r := lrem x s
  if r.1 = 0 then .error r.2 else .ok r.2

/-- Method `RedisQueue.rotate`: `poppush(key, key)`, one rotation step. -/
def rotate (s : Store) : Store := poppush s

/-- Method `RedisQueue.__contains__`: full-range read, then `None` ("unknown") if the
sequence does not exist, else a linear membership scan. -/
def contains (x : Val) (s : Store) : Option Bool :=
  match lrangeAll s with
  | none => none
  | some members => some (decide (x ∈ members))

/-- Method `RedisQueue.__len__`: `llen(key)`. -/
def len (s : Store) : Nat := llen s

/-- Method `RedisQueue.__getitem__`: `lindex(key, i)`. -/
def getitem (i : Int) (s : Store) : Option Val := lindex i s

/-- Method `RedisQueue.__setitem__`: `lset(key, i, v)`, with the store's range/type
error translated to `IndexError` (the `Except.error` case). -/
def setitem (i : Int) (v : Val) (s : Store) : Except Unit Store := lset i v s

/-- Method `RedisQueue.__iter__`: a single eagerly-fetched full-range snapshot
(`lrange key 0 -1`) which is then walked; `none` marks the `iter(None)`
failure when the key does not exist. -/
def iterQueue (s : Store) : Option (List Val) := lrangeAll s

end RedisQueue

namespace ExclusiveQueue

/-- Python truthiness of a `__contains__` result: the `in` operator coerces
`None` to `False`. -/
def truthy : Option Bool → Bool
  | none => false
  | some b => b

/-- Method `ExclusiveQueue.append`: `if x not in self: rpush(key, x)`. -/
def append (x : Val) (s : Store) : Store :=
  if truthy (RedisQueue.contains x s) then s else rpush x s

/-- Method `ExclusiveQueue.appendleft`: `if x not in self: lpush(key, x)`. -/
def appendleft (x : Val) (s : Store) : Store :=
  if truthy (RedisQueue.contains x s) then s else lpush x s

/-- Method `ExclusiveQueue.pop(timeout)`: `super().pop(timeout)`, then
`self.remove(item)` with `ValueError` swallowed; returns the popped item. -/
def pop (key : String) (timeout : Option Nat) (s : Store) : Option Val × Store :=
  let r := RedisQueue.pop key timeout s
  match RedisQueue.remove r.1 r.2 with
  | .ok s2 => (r.1, s2)
  | .error s2 => (r.1, s2)

/-- Method `ExclusiveQueue.popleft(timeout)`: symmetric. -/
def popleft (key : String) (timeout : Option Nat) (s : Store) : Option Val × Store :=
  let r := RedisQueue.popleft key timeout s
  match RedisQueue.remove r.1 r.2 with
  | .ok s2 => (r.1, s2)
  | .error s2 => (r.1, s2)

/-- Method `extend` as inherited by `ExclusiveQueue`: `RedisQueue.extend`'s loop calls
`self.append(item)`, which dynamically dispatches to the override above. -/
def extend (xs : List Val) (s : Store) : Store :=
  xs.foldl (fun st x => append x st) s

/-- Method `extendleft` as inherited by `ExclusiveQueue`: dispatches to the
overridden `appendleft`. -/
def extendleft (xs : List Val) (s : Store) : Store :=
  xs.foldl (fun st x => appendleft x st) s

end ExclusiveQueue

/-- One mutation by the single caller of an `ExclusiveQueue`: an `append` or
an `appendleft` of some value. -/
inductive ExclOp where
  | app (x : Val)
  | appl (x : Val)

/-- Run a finite sequence of `ExclusiveQueue` push calls, in order. -/
def applyOps (ops : List ExclOp) (s : Store) : Store :=
  ops.foldl
    (fun st op =>
      match op with
      | .app x => ExclusiveQueue.append x st
      | .appl x => ExclusiveQueue.appendleft x st) s

/-- Whether an indexed-write target is inside the current bounds of the
sequence (0-based from the head, negative indices counting from the tail). -/
def inBoundsI (i : Int) (s : Store) : Prop :=
  -((seqOf s).length : Int) ≤ i ∧ i < ((seqOf s).length : Int)

instance (i : Int) (s : Store) : Decidable (inBoundsI i s) := by
  unfold inBoundsI; infer_instance

/-- Whether an `Except` result is a success. -/
def okB {ε α : Type _} : Except ε α → Bool
  | .ok _ => true
  | .error _ => false

/-- The store state after `RedisQueue.remove` returns or raises. -/
def removeResultState : Except Store Store → Store
  | .ok s => s
  | .error s => s

lemma seqOf_some (l : List Val) : seqOf (some l) = l := rfl

lemma seqOf_none : seqOf none = [] := rfl

lemma extend_seq (xs : List Val) (s : Store) :
    seqOf (RedisQueue.extend xs s) = seqOf s ++ xs := by
  induction xs generalizing s with
  | nil => simp [RedisQueue.extend]
  | cons x xs ih =>
      show seqOf (RedisQueue.extend xs (RedisQueue.append x s)) = _
      rw [ih]
      simp [RedisQueue.append, rpush, seqOf_some]

lemma extendleft_seq (xs : List Val) (s : Store) :
    seqOf (RedisQueue.extendleft xs s) = xs.reverse ++ seqOf s := by
  induction xs generalizing s with
  | nil => simp [RedisQueue.extendleft]
  | cons x xs ih =>
      show seqOf (RedisQueue.extendleft xs (RedisQueue.appendleft x s)) = _
      rw [ih]
      simp [RedisQueue.appendleft, lpush, seqOf_some]

lemma extend_some (xs l : List Val) :
    RedisQueue.extend xs (some l) = some (l ++ xs) := by
  induction xs generalizing l with
  | nil => simp [RedisQueue.extend]
  | cons x xs ih =>
      show RedisQueue.extend xs (some (l ++ [x])) = _
      rw [ih]
      simp

/-- C6: for every starting sequence and list of values, `extendleft` pushes
each element at the head in input order, so the resulting sequence is the
reverse of the input followed by the original contents — the relative order
of the input is reversed versus `extend`, which appends it unreversed at the
tail. -/
theorem c6_extendleft_reverses (xs : List Val) (s : Store) :
    seqOf (RedisQueue.extendleft xs s) = xs.reverse ++ seqOf s
  ∧ seqOf (RedisQueue.extend xs s) = seqOf s ++ xs :=
  ⟨extendleft_seq xs s, extend_seq xs s⟩

/-- C4: starting from an empty sequence, appending v1..vn and then iterating
yields exactly [v1..vn] in order; iteration is the full-range snapshot of the
current state, so each new iteration re-fetches.  When the queue's key has
never been written (the nonexistent-sequence state), the same holds whenever
at least one value was appended. -/
theorem c4_append_then_iterate (xs : List Val) :
    RedisQueue.iterQueue (RedisQueue.extend xs (some [])) = some xs
  ∧ (xs ≠ [] → RedisQueue.iterQueue (RedisQueue.extend xs none) = some xs) := by
  constructor
  · show RedisQueue.extend xs (some []) = some xs
    rw [extend_some]
    simp
  · intro h
    cases xs with
    | nil => exact absurd rfl h
    | cons x xs =>
        show RedisQueue.extend xs (some [x]) = some (x :: xs)
        rw [extend_some]
        rfl

theorem c4_append_then_iterate_witness :
    RedisQueue.iterQueue (RedisQueue.extend [Val.bytes "a"] none) = some [Val.bytes "a"] :=
  (c4_append_then_iterate [Val.bytes "a"]).2 (by decide)

/-- C5: `rotate()` performs exactly one rotation step, moving the tail
element to the head; on an empty or nonexistent sequence it is a no-op. -/
theorem c5_rotate_one_step :
    (∀ (l : List Val) (x : Val), RedisQueue.rotate (some (l ++ [x])) = some (x :: l))
  ∧ RedisQueue.rotate (some []) = some []
  ∧ RedisQueue.rotate none = none := by
  refine ⟨fun l x => ?_, rfl, rfl⟩
  simp [RedisQueue.rotate, poppush, List.getLast?_concat, List.dropLast_concat]

/-- C8: the membership test reads the full current sequence and reports
whether the value is present in that snapshot, except that it returns the
distinct "unknown" indicator (`none`, not `some false`) when the sequence
does not exist in the store. -/
theorem c8_contains_snapshot (x : Val) :
    RedisQueue.contains x none = none
  ∧ ∀ l : List Val, RedisQueue.contains x (some l) = some (decide (x ∈ l)) :=
  ⟨rfl, fun _ => rfl⟩

/-- C10: on an empty (or nonexistent) sequence with no timeout,
`ExclusiveQueue.pop` and `popleft` return the empty indicator and leave the
store unchanged: `lrem` applied to the empty indicator removes zero
occurrences from any state, and the resulting `ValueError` from `remove` is
swallowed. -/
theorem c10_pop_empty_returns_indicator (key : String) :
    ExclusiveQueue.pop key none none = (none, none)
  ∧ ExclusiveQueue.pop key none (some []) = (none, some [])
  ∧ ExclusiveQueue.popleft key none none = (none, none)
  ∧ ExclusiveQueue.popleft key none (some []) = (none, some [])
  ∧ (∀ s : Store, lrem none s = (0, s))
  ∧ RedisQueue.remove none none = .error none := by
  refine ⟨rfl, rfl, rfl, rfl, fun s => ?_, rfl⟩
  cases s with
  | none => rfl
  | some l => simp [lrem]

lemma nodup_exclAppend (x : Val) (s : Store) (h : (seqOf s).Nodup) :
    (seqOf (ExclusiveQueue.append x s)).Nodup := by
  cases s with
  | none =>
      simp [ExclusiveQueue.append, ExclusiveQueue.truthy, RedisQueue.contains,
        lrangeAll, rpush, seqOf]
  | some l =>
      by_cases hx : x ∈ l
      · simpa [ExclusiveQueue.append, ExclusiveQueue.truthy, RedisQueue.contains,
          lrangeAll, hx] using h
      · simp only [seqOf_some] at h
        simp [ExclusiveQueue.append, ExclusiveQueue.truthy, RedisQueue.contains,
          lrangeAll, hx, rpush, seqOf_some, List.nodup_append, h]

lemma nodup_exclAppendleft (x : Val) (s : Store) (h : (seqOf s).Nodup) :
    (seqOf (ExclusiveQueue.appendleft x s)).Nodup := by
  cases s with
  | none =>
      simp [ExclusiveQueue.appendleft, ExclusiveQueue.truthy, RedisQueue.contains,
        lrangeAll, lpush, seqOf]
  | some l =>
      by_cases hx : x ∈ l
      · simpa [ExclusiveQueue.appendleft, ExclusiveQueue.truthy, RedisQueue.contains,
          lrangeAll, hx] using h
      · simp only [seqOf_some] at h
        simp [ExclusiveQueue.appendleft, ExclusiveQueue.truthy, RedisQueue.contains,
          lrangeAll, hx, lpush, seqOf_some, List.nodup_cons, h]

lemma nodup_applyOps (ops : List ExclOp) (s : Store) (h : (seqOf s).Nodup) :
    (seqOf (applyOps ops s)).Nodup := by
  induction ops generalizing s with
  | nil => exact h
  | cons op ops ih =>
      cases op with
      | app x => exact ih (ExclusiveQueue.append x s) (nodup_exclAppend x s h)
      | appl x => exact ih (ExclusiveQueue.appendleft x s) (nodup_exclAppendleft x s h)

lemma nodup_exclExtend (xs : List Val) (s : Store) (h : (seqOf s).Nodup) :
    (seqOf (ExclusiveQueue.extend xs s)).Nodup := by
  induction xs generalizing s with
  | nil => exact h
  | cons x xs ih => exact ih (ExclusiveQueue.append x s) (nodup_exclAppend x s h)

lemma nodup_exclExtendleft (xs : List Val) (s : Store) (h : (seqOf s).Nodup) :
    (seqOf (ExclusiveQueue.extendleft xs s)).Nodup := by
  induction xs generalizing s with
  | nil => exact h
  | cons x xs ih => exact ih (ExclusiveQueue.appendleft x s) (nodup_exclAppendleft x s h)

/-- C2: starting from an empty (nonexistent) sequence, after any finite
sequence of `ExclusiveQueue.append` / `appendleft` calls by a single caller,
each distinct value occurs at most once in the underlying sequence. -/
theorem c2_exclusive_at_most_once (ops : List ExclOp) (x : Val) :
    (seqOf (applyOps ops none)).count x ≤ 1 :=
  List.nodup_iff_count_le_one.mp (nodup_applyOps ops none List.nodup_nil) x

/-- C9: the inherited `extend`/`extendleft` loops dispatch each per-element
push to `ExclusiveQueue`'s overridden `append`/`appendleft`, so from any
duplicate-free state (single caller, no concurrency) both calls preserve the
at-most-one-occurrence-per-value property. -/
theorem c9_exclusive_extend_at_most_once (xs : List Val) (s : Store)
    (h : (seqOf s).Nodup) (x : Val) :
    (seqOf (ExclusiveQueue.extend xs s)).count x ≤ 1
  ∧ (seqOf (ExclusiveQueue.extendleft xs s)).count x ≤ 1 :=
  ⟨List.nodup_iff_count_le_one.mp (nodup_exclExtend xs s h) x,
   List.nodup_iff_count_le_one.mp (nodup_exclExtendleft xs s h) x⟩

theorem c9_exclusive_extend_at_most_once_witness :
    (seqOf (ExclusiveQueue.extend [Val.bytes "a", Val.bytes "a"]
      (some [Val.bytes "b"]))).count (Val.bytes "a") ≤ 1
  ∧ (seqOf (ExclusiveQueue.extendleft [Val.bytes "a", Val.bytes "a"]
      (some [Val.bytes "b"]))).count (Val.bytes "a") ≤ 1 :=
  c9_exclusive_extend_at_most_once [Val.bytes "a", Val.bytes "a"]
    (some [Val.bytes "b"]) (by decide) (Val.bytes "a")

lemma countP_match_eq_zero_iff (x : Val) (l : List Val) :
    l.countP (fun e => decide ((some x : Option Val) = some e)) = 0 ↔ x ∉ l := by
  rw [List.countP_eq_zero]
  constructor
  · intro h hx
    have := h x hx
    simp at this
  · intro h e he
    simp only [decide_eq_true_eq, Option.some.injEq]
    intro hxe
    exact h (hxe ▸ he)

lemma lrem_filter_eq (x : Val) (l : List Val) :
    l.filter (fun e => decide (¬ (some x : Option Val) = some e))
      = l.filter (fun e => decide (¬ e = x)) :=
  List.filter_congr (fun e _ => by simp [eq_comm])

/-- C3: `remove(x)` removes every occurrence of `x` (and only those) from the
sequence, and it raises the NotFound error exactly when zero occurrences were
removed; in either case the sequence afterwards contains no occurrence of
`x`. -/
theorem c3_remove_all_occurrences (x : Val) (s : Store) :
    (okB (RedisQueue.remove (some x) s) = false ↔ x ∉ seqOf s)
  ∧ seqOf (removeResultState (RedisQueue.remove (some x) s))
      = (seqOf s).filter (fun e => decide (¬ e = x)) := by
  cases s with
  | none =>
      exact ⟨by simp [RedisQueue.remove, lrem, okB, seqOf], by
        simp [RedisQueue.remove, lrem, removeResultState, seqOf]⟩
  | some l =>
      have hstate : removeResultState (RedisQueue.remove (some x) (some l))
          = some (l.filter (fun e => decide (¬ (some x : Option Val) = some e))) := by
        simp only [RedisQueue.remove, lrem]
        split <;> rfl
      have hok : okB (RedisQueue.remove (some x) (some l)) = false
          ↔ l.countP (fun e => decide ((some x : Option Val) = some e)) = 0 := by
        simp only [RedisQueue.remove, lrem]
        split
        · next h => exact iff_of_true rfl h
        · next h => exact iff_of_false (by simp [okB]) h
      constructor
      · rw [hok]
        exact countP_match_eq_zero_iff x l
      · rw [hstate]
        simp only [seqOf_some]
        exact lrem_filter_eq x l

lemma exclPop_state (key : String) (timeout : Option Nat) (s : Store) :
    ExclusiveQueue.pop key timeout s
      = ((RedisQueue.pop key timeout s).1,
         (lrem (RedisQueue.pop key timeout s).1 (RedisQueue.pop key timeout s).2).2) := by
  simp only [ExclusiveQueue.pop, RedisQueue.remove]
  split <;> rename_i heq <;> split at heq <;> simp_all

lemma rpop_concat (l : List Val) (x : Val) :
    rpop (some (l ++ [x])) = (some x, some l) := by
  simp [rpop, List.getLast?_concat, List.dropLast_concat]

/-- C1 counterexample: on the sequence [a, b, a], `ExclusiveQueue.pop` with a
timeout does not return the tail element `a` (it returns the (key, value)
pair from the blocking pop), and afterwards a membership test for the popped
tail value `a` still returns true, because the internal `remove` was applied
to the pair and matched nothing. -/
theorem c1_pop_timeout_counterexample :
    (ExclusiveQueue.pop "q" (some 1)
        (some [Val.bytes "a", Val.bytes "b", Val.bytes "a"])).1 ≠ some (Val.bytes "a")
  ∧ RedisQueue.contains (Val.bytes "a")
      (ExclusiveQueue.pop "q" (some 1)
        (some [Val.bytes "a", Val.bytes "b", Val.bytes "a"])).2 = some true := by
  decide

/-- C1 amended: with no timeout and a nonempty sequence, `ExclusiveQueue.pop`
removes and returns the tail element, then removes all other occurrences of
it (swallowing NotFound when there are none), so a subsequent membership test
for the returned value yields false.  With a timeout, the blocking pop
returns the (key, value) pair instead of the bare tail element, and the
subsequent `remove` targets that pair, which matches no stored element, so
the rest of the sequence is left unchanged (other occurrences of the popped
value survive). -/
theorem c1_pop_dedup_amended (key : String) (t : Nat) (l : List Val) (x : Val)
    (hp : Val.pair key x ∉ l) :
    ((ExclusiveQueue.pop key none (some (l ++ [x]))).1 = some x
      ∧ RedisQueue.contains x (ExclusiveQueue.pop key none (some (l ++ [x]))).2
          = some false)
  ∧ ((ExclusiveQueue.pop key (some t) (some (l ++ [x]))).1
        = some (Val.pair key x)
      ∧ (ExclusiveQueue.pop key (some t) (some (l ++ [x]))).2 = some l) := by
  have hpop : RedisQueue.pop key none (some (l ++ [x])) = (some x, some l) :=
    rpop_concat l x
  have hbpop : RedisQueue.pop key (some t) (some (l ++ [x]))
      = (some (Val.pair key x), some l) := by
    simp [RedisQueue.pop, brpop, rpop_concat]
  constructor
  · rw [exclPop_state, hpop]
    refine ⟨rfl, ?_⟩
    show RedisQueue.contains x (lrem (some x) (some l)).2 = some false
    simp [lrem, RedisQueue.contains, lrangeAll, List.mem_filter]
  · rw [exclPop_state, hbpop]
    refine ⟨rfl, ?_⟩
    show (lrem (some (Val.pair key x)) (some l)).2 = some l
    simp only [lrem]
    congr 1
    refine List.filter_eq_self.mpr (fun e he => ?_)
    simp only [decide_eq_true_eq, Option.some.injEq]
    intro hco
    exact hp (hco ▸ he)

theorem c1_pop_dedup_amended_witness :
    (ExclusiveQueue.pop "q" (some 1)
        (some ([Val.bytes "a", Val.bytes "b"] ++ [Val.bytes "a"]))).2
      = some [Val.bytes "a", Val.bytes "b"] :=
  (c1_pop_dedup_amended "q" 1 [Val.bytes "a", Val.bytes "b"] (Val.bytes "a")
    (by decide)).2.2

lemma get?_set_self (l : List Val) (n : Nat) (v : Val) (h : n < l.length) :
    (l.set n v).get? n = some v := by
  simp [List.get?_eq_getElem?, List.getElem?_set_self', List.getElem?_eq_getElem h]

lemma normIdx_bounds_iff (i : Int) (l : List Val) :
    (0 ≤ normIdx i l.length ∧ normIdx i l.length < (l.length : Int))
      ↔ inBoundsI i (some l) := by
  unfold inBoundsI normIdx
  simp only [seqOf_some]
  split <;> omega

/-- C7: the indexed write raises IndexError (the store's range/type error,
wrapped) exactly when the index is outside the current bounds of the sequence
(negative indices counting from the tail per store convention, and every
index being out of bounds when the sequence does not exist); when the index
is in bounds the write succeeds, and an indexed read at the same index then
returns the written value. -/
theorem c7_setitem_bounds (i : Int) (v : Val) (s : Store) :
    (okB (RedisQueue.setitem i v s) = false ↔ ¬ inBoundsI i s)
  ∧ (∀ s', RedisQueue.setitem i v s = .ok s' →
      RedisQueue.getitem i s' = some v) := by
  cases s with
  | none =>
      constructor
      · refine iff_of_true rfl (fun hib => ?_)
        have h1 := hib.1
        have h2 := hib.2
        simp only [seqOf_none, List.length_nil] at h1 h2
        omega
      · intro s' hs'
        exact absurd hs' (by simp [RedisQueue.setitem, lset])
  | some l =>
      by_cases hb : 0 ≤ normIdx i l.length ∧ normIdx i l.length < (l.length : Int)
      · have hset : RedisQueue.setitem i v (some l)
            = .ok (some (l.set (normIdx i l.length).toNat v)) := by
          simp only [RedisQueue.setitem, lset]
          rw [if_pos hb]
        constructor
        · rw [hset]
          exact iff_of_false (by simp [okB]) (by simp [(normIdx_bounds_iff i l).mp hb])
        · intro s' hs'
          rw [hset] at hs'
          injection hs' with hs'
          subst hs'
          simp only [RedisQueue.getitem, lindex, seqOf_some, List.length_set]
          rw [if_pos hb.1]
          exact get?_set_self l _ v (by omega)
      · have hset : RedisQueue.setitem i v (some l) = .error () := by
          simp only [RedisQueue.setitem, lset]
          rw [if_neg hb]
        constructor
        · rw [hset]
          exact iff_of_true rfl (fun hib => hb ((normIdx_bounds_iff i l).mpr hib))
        · intro s' hs'
          rw [hset] at hs'
          exact absurd hs' (by simp)

theorem c7_setitem_bounds_witness :
    RedisQueue.getitem 0 (some [Val.bytes "x"]) = some (Val.bytes "x") :=
  (c7_setitem_bounds 0 (Val.bytes "x") (some [Val.bytes "a"])).2
    (some [Val.bytes "x"]) (by rfl)
